import Mathlib

/-!
Verification of the Schwarz preconditioner core (`src/schwarz.hpp` of HPDDM).

The scalar type `K` is modelled by `ℚ` (exact arithmetic); vectors are lists of
rationals.  The external collaborators that the spec declares out of scope
(local factorized solve, coarse operator solve, halo exchange) are opaque
function fields of the `Schwarz` record, so every theorem quantifying over a
`Schwarz` value holds for all possible behaviours of those capabilities.
Dense and sparse BLAS-level kernels (`Wrapper::diag`, `gemv`, `axpy`,
`csrmv`), which live in wrapper code outside the extracted source, are
modelled from the spec as the mathematical operations the spec names for
them.  MPI transfers are modelled by explicit received-value lists and an
explicit completion order.
-/

namespace HPDDM

/-- Vectors of scalars (the scalar type K of the template is modelled by ℚ). -/
abbrev Vec := List ℚ

/-- Modelled from the spec: the constant HPDDM_EPS (the "small epsilon" used for
degenerate-value thresholding), absent from the extracted source. -/
def HPDDM_EPS : ℚ := 1 / 10 ^ 12

/-- Modelled from the spec: the constant HPDDM_PEN (the "large penalty constant"
used for boundary-condition rows), absent from the extracted source. -/
def HPDDM_PEN : ℚ := 10 ^ 30

/-- Modelled from the spec: the scalar constant `Wrapper::d__2` lives in wrapper
code absent from the extracted source.  Two spec sentences pin its value:
section 4.5.3 says the deflated strategy computes `in - A·Z·E⁻¹·Zᵗ·D·in`
("subtract its image under the global operator") through a product with
coefficient d__2, and section 4.6 says the residual is the solution image
minus the right-hand side (`axpy` with coefficient d__2).  Both force d__2 = -1. -/
def dm1 : ℚ := -1

/-- Modelled from the spec: `Wrapper::diag`, the diagonal-scaling kernel
(out i = d i * in i). -/
def diagScale (d v : Vec) : Vec := List.zipWith (fun a b => a * b) d v

/-- Modelled from the spec: `Wrapper::axpy` (y := y + a * x). -/
def axpyV (a : ℚ) (x y : Vec) : Vec := List.zipWith (fun xi yi => yi + a * xi) x y

/-- Dot product of two vectors. -/
def dot (x y : Vec) : ℚ := (List.zipWith (fun a b => a * b) x y).sum

/-- Modelled from the spec: transposed dense `gemv` with the deflation basis as
matrix — the reduction u = Zᵗ·x, one entry per basis column. -/
def gemvT (ev : List Vec) (x : Vec) : Vec := ev.map (fun col => dot col x)

/-- Modelled from the spec: dense `gemv` with the deflation basis as matrix —
the prolongation y = Z·c, entrywise the sum over basis columns. -/
def gemvN (dof : ℕ) (ev : List Vec) (c : Vec) : Vec :=
  (List.range dof).map (fun i => ((ev.zip c).map (fun p => p.2 * p.1.getD i 0)).sum)

/-- Sparse matrix in CSR format, mirroring `MatrixCSR<K>`: `n` rows, a symmetry
flag (`_sym` stores only the lower triangle), value array `_a`, row-pointer
array `_ia` and column-index array `_ja`. -/
structure MatrixCSR where
  n : ℕ
  sym : Bool
  a : List ℚ
  ia : List ℕ
  ja : List ℕ

/-- Absolute positions of the stored entries of row `i` (the range
`_ia[i] .. _ia[i+1]`). -/
def rowRange (A : MatrixCSR) (i : ℕ) : List ℕ :=
  List.range' (A.ia.getD i 0) (A.ia.getD (i + 1) 0 - A.ia.getD i 0)

/-- Value of row `i` of `A · x` using only the stored entries of row `i`. -/
def csrRow (A : MatrixCSR) (x : Vec) (i : ℕ) : ℚ :=
  ((rowRange A i).map (fun j => A.a.getD j 0 * x.getD (A.ja.getD j 0) 0)).sum

/-- Stored (column, value) pairs of row `i`. -/
def rowEntries (A : MatrixCSR) (i : ℕ) : List (ℕ × ℚ) :=
  (rowRange A i).map (fun j => (A.ja.getD j 0, A.a.getD j 0))

/-- Add `v` to position `k` of `y`. -/
def addAt (y : Vec) (k : ℕ) (v : ℚ) : Vec := y.set k (y.getD k 0 + v)

/-- Modelled from the spec: `Wrapper::csrmv`, the sparse matrix-vector kernel.
For symmetric storage the transposed images of the off-diagonal stored entries
are scattered in as well. -/
def csrMatVec (A : MatrixCSR) (x : Vec) : Vec :=
  let base := (List.range A.n).map (fun i => csrRow A x i)
  if A.sym then
    (List.range A.n).foldl (fun y i =>
      (rowEntries A i).foldl (fun y p =>
        if p.1 = i then y else addAt y p.1 (p.2 * x.getD i 0)) y) base
  else base

/-- The preconditioner type enum `Prcndtnr` of `schwarz.hpp`. -/
inductive Prcndtnr
  | NO | SY | GE | OS | OG | AD | BA
deriving DecidableEq

/-- State of one (non-excluded) process of the `Schwarz` class: the local
degree-of-freedom count, the partition-of-unity vector `_d`, the deflation
basis `_ev`, the selected `Prcndtnr` type, the local sparse matrix
`Subdomain::_a`, the three opaque capabilities (local factorized solve
`super::_s.solve`, coarse solve `super::_co->callSolver`, halo exchange
`Subdomain::exchange`), whether a coarse operator `super::_co` exists, and the
raw option value `schwarz_coarse_correction`. -/
structure Schwarz where
  dof : ℕ
  d : Vec
  ev : List Vec
  type : Prcndtnr
  A : MatrixCSR
  localSolve : Vec → Vec
  coarseSolve : Vec → Vec
  exchange : Vec → Vec
  hasCoarse : Bool
  correctionOpt : Int

/-- The coarse right-hand side `_uc = Zᵗ·D·in` built by `deflation` before the
coarse solve (line 157 of the source). -/
def deflationUC (s : Schwarz) (v : Vec) : Vec :=
  s.coarseSolve (gemvT s.ev (diagScale s.d v))

/-- `Schwarz::deflation` for a non-excluded process (fuse = 0): scale the input
by `_d`, reduce with the basis transpose, solve the coarse system, prolongate
with the basis; unless the type is `AD`, rescale and exchange (lines 156-163). -/
def deflation (s : Schwarz) (v : Vec) : Vec :=
  let out := diagScale s.d v
  let uc := gemvT s.ev out
  let uc := s.coarseSolve uc
  let out := gemvN s.dof s.ev uc
  if s.type = Prcndtnr.AD then out else s.exchange (diagScale s.d out)

/-- `Schwarz::deflation` with its process-exclusion flag, acting on the pair
(coarse buffer `_uc`, output buffer): an excluded process only calls the
coarse solver on `_uc` and leaves the output untouched (line 154); otherwise
both buffers are overwritten as in `deflation`. -/
def deflationE (s : Schwarz) (excluded : Bool) (v uc0 out0 : Vec) : Vec × Vec :=
  if excluded then (s.coarseSolve uc0, out0)
  else (deflationUC s v, deflation s v)

/-- The single-level branch of `Schwarz::apply` (lines 231-252), for a
non-excluded process. -/
def applySingle (s : Schwarz) (v : Vec) : Vec :=
  if s.type = Prcndtnr.NO then v
  else if s.type = Prcndtnr.GE ∨ s.type = Prcndtnr.OG then
    s.exchange (diagScale s.d (s.localSolve v))
  else if s.type = Prcndtnr.OS then
    s.exchange (diagScale s.d (s.localSolve (diagScale s.d v)))
  else s.exchange (s.localSolve v)

/-- `Schwarz::GMV` (active branch, lines 398-402): sparse product, diagonal
scaling of the result, halo exchange. -/
def GMV (s : Schwarz) (v : Vec) : Vec :=
  s.exchange (diagScale s.d (csrMatVec s.A v))

/-- `Schwarz::apply` (mu = 1, fuse = 0, non-excluded, synchronous coarse path).
Returns the output vector together with the final contents of the input
buffer: when no work array is supplied the code aliases `work` to `in`
(line 256), so the input buffer holds the scratch values on return; when a
work array is supplied the input is copied into it (line 258) and survives. -/
def apply (s : Schwarz) (v : Vec) (haveWork : Bool) : Vec × Vec :=
  let correction : Int := max s.correctionOpt (-1)
  if s.hasCoarse = false ∨ correction = -1 then
    (applySingle s v, v)
  else if correction = 1 then
    let out1 := deflation s v
    let work1 := s.localSolve v
    let out2 := s.exchange (diagScale s.d (axpyV 1 work1 out1))
    (out2, if haveWork then v else work1)
  else
    let out1 := deflation s v
    let work1 := axpyV dm1 (csrMatVec s.A out1) v
    let work2 := s.exchange (diagScale s.d work1)
    let work3 := if s.type = Prcndtnr.OS then diagScale s.d work2 else work2
    let work4 := s.exchange (diagScale s.d (s.localSolve work3))
    let work5 := if correction = 2 then axpyV dm1 (deflation s (GMV s work4)) work4 else work4
    (axpyV 1 work5 out1, if haveWork then v else work5)

/-- Branch lemma: with no coarse operator or a configured strategy of -1,
`apply` takes the single-level branch and leaves the input untouched. -/
theorem apply_eq_single (s : Schwarz) (v : Vec) (w : Bool)
    (h : s.hasCoarse = false ∨ s.correctionOpt ≤ -1) :
    apply s v w = (applySingle s v, v) := by
  have hc : s.hasCoarse = false ∨ max s.correctionOpt (-1) = -1 := by
    rcases h with h | h
    · exact Or.inl h
    · exact Or.inr (by omega)
  unfold apply
  exact if_pos hc

/-- One weight update of `Schwarz::multiplicityScaling` (lines 124-129): if the
snapshot value `s` sent for this index is below HPDDM_EPS in magnitude the
weight becomes exactly 0, otherwise w := w / (1 + w * r / s) with `r` the
received value. -/
def updOne (s r w : ℚ) : ℚ := if |s| < HPDDM_EPS then 0 else w / (1 + w * r / s)

/-- Processing of one completed neighbor receive in
`Schwarz::multiplicityScaling`: walk the shared indices of that neighbor and
update the weight at each, comparing the snapshot (send-buffer) value with the
received value. -/
def neighborStep (dInit : Vec) (idxs : List ℕ) (rvals : List ℚ) (d : Vec) : Vec :=
  (idxs.zip rvals).foldl
    (fun dd p => dd.set p.1 (updOne (dInit.getD p.1 0) p.2 (dd.getD p.1 0))) d

/-- `Schwarz::multiplicityScaling` (lines 110-132): the snapshot of the incoming
weight array `dInit` restricted to the shared indices is sent to each neighbor
(gather at line 115 happens before the fill at line 118), all local weights
are reset to 1, and then the neighbor receives are processed in the completion
order `order` delivered by the wait-on-any loop.  `nmap` is the per-neighbor
list of shared local indices (`Subdomain::_map`), `recv` the received values. -/
def multiplicityScaling (dof : ℕ) (nmap : List (List ℕ)) (recv : List (List ℚ))
    (dInit : Vec) (order : List ℕ) : Vec :=
  order.foldl
    (fun dd i => neighborStep dInit (nmap.getD i []) (recv.getD i []) dd)
    (List.replicate dof 1)

/-- Received values paired with shared index `m` for one neighbor, in order. -/
def occAt (idxs : List ℕ) (rvals : List ℚ) (m : ℕ) : List ℚ :=
  ((idxs.zip rvals).filter (fun p => decide (p.1 = m))).map (fun p => p.2)

/-- Sum of every value received for local index `m`, over all neighbors. -/
def recvSum (nmap : List (List ℕ)) (recv : List (List ℚ)) (m : ℕ) : ℚ :=
  ((List.range nmap.length).map
    (fun i => (occAt (nmap.getD i []) (recv.getD i []) m).sum)).sum

/-- Whether some neighbor exchange actually carries local index `m`. -/
def sharedZ (nmap : List (List ℕ)) (recv : List (List ℚ)) (m : ℕ) : Bool :=
  (List.range nmap.length).any
    (fun i => !(occAt (nmap.getD i []) (recv.getD i []) m).isEmpty)

/-- Order-free description of the weights produced by `multiplicityScaling`:
1 at indices not exchanged with any neighbor; 0 at exchanged indices whose
snapshot is below HPDDM_EPS in magnitude; otherwise the harmonic combination
1 / (1 + (sum of received values) / snapshot). -/
def scalingClosedForm (dof : ℕ) (nmap : List (List ℕ)) (recv : List (List ℚ))
    (dInit : Vec) : Vec :=
  (List.range dof).map (fun m =>
    if sharedZ nmap recv m then
      if |dInit.getD m 0| < HPDDM_EPS then 0
      else 1 / (1 + recvSum nmap recv m / dInit.getD m 0)
    else 1)

/-- The relative pruning threshold 1 / (HPDDM_EPS * HPDDM_PEN) applied to the
deflation vectors at line 377 of the source. -/
def pruneEntry (x : ℚ) : ℚ := if |x| < 1 / (HPDDM_EPS * HPDDM_PEN) then 0 else x

/-- Result of `Schwarz::solveGEVP`: the updated `nu` reference argument, the
updated `geneo_nu` option entry, and the deflation basis `_ev`. -/
structure GEVPResult where
  nu : ℕ
  geneo_nu : ℕ
  ev : List Vec

/-- `Schwarz::solveGEVP` (lines 360-378) with the eigensolver capability left
opaque: `eigensolve` returns the achieved eigenpair count (`evp.getNu()`)
together with the stored basis vectors.  Both `nu` and the option entry
`geneo_nu` are overwritten with the achieved count, and the first `nu` basis
vectors have their near-zero entries pruned to exactly zero. -/
def solveGEVP (eigensolve : ℕ → ℕ × List Vec) (nuRequested : ℕ) : GEVPResult :=
  let r := eigensolve nuRequested
  { nu := r.1
    geneo_nu := r.1
    ev := (r.2.take r.1).map (fun v => v.map pruneEntry) ++ r.2.drop r.1 }

/-- Stored column indices of row `i`. -/
def rowJa (A : MatrixCSR) (i : ℕ) : List ℕ := (rowRange A i).map (fun j => A.ja.getD j 0)

/-- The `stop` bound of `Schwarz::computeError` (lines 423-427): for general
storage, the absolute position just past the stored entries of row `i` whose
column does not exceed `i` (the upper_bound over the sorted row); for
symmetric storage, the end of the row. -/
def stopIdx (A : MatrixCSR) (i : ℕ) : ℕ :=
  if A.sym then A.ia.getD (i + 1) 0
  else A.ia.getD i 0 + ((rowJa A i).filter (fun c => decide (c ≤ i))).length

/-- Row-skip test of `Schwarz::computeError` (line 428): a row whose last
lower-triangular stored value exceeds HPDDM_EPS * HPDDM_PEN in magnitude is
skipped entirely (`continue`) and contributes to neither sum. -/
def rowSkipped (A : MatrixCSR) (i : ℕ) : Bool :=
  decide (HPDDM_EPS * HPDDM_PEN < |A.a.getD (stopIdx A i - 1) 0|)

/-- Absolute positions inspected by the boundary-row detection loop of
`Schwarz::computeError` (line 430): the stored entries of row `i` up to `stop`. -/
def lowerRange (A : MatrixCSR) (i : ℕ) : List ℕ :=
  List.range' (A.ia.getD i 0) (stopIdx A i - A.ia.getD i 0)

/-- Boundary-row detection of `Schwarz::computeError` (lines 430-435): row `i`
is a boundary row when no inspected entry is an off-diagonal above HPDDM_EPS
and no inspected diagonal entry differs from 1 by more than HPDDM_EPS. -/
def isBoundaryCond (A : MatrixCSR) (i : ℕ) : Bool :=
  (lowerRange A i).all (fun j =>
    decide (¬(A.ja.getD j 0 ≠ i ∧ HPDDM_EPS < |A.a.getD j 0|) ∧
            ¬(A.ja.getD j 0 = i ∧ HPDDM_EPS < |A.a.getD j 0 - 1|)))

/-- Accumulation loop of `Schwarz::computeError` (lines 421-444) for mu = 1,
over the residual vector `tmp` and the right-hand side `f`: returns the pair
(weighted right-hand-side sum `storage[0]`, weighted residual sum
`storage[1]`) before the global reduction and square root. -/
def errorFold (s : Schwarz) (tmp f : Vec) : ℚ × ℚ :=
  (List.range s.dof).foldl (fun st i =>
    if rowSkipped s.A i then st
    else
      (st.1 + s.d.getD i 0 *
        (if HPDDM_EPS * HPDDM_PEN < |f.getD i 0| then f.getD i 0 / HPDDM_PEN
         else f.getD i 0) ^ 2,
       st.2 + if isBoundaryCond s.A i then 0
              else s.d.getD i 0 * (tmp.getD i 0) ^ 2))
    (0, 0)

/-- `Schwarz::computeError` (lines 415-444) up to the blocking global reduction
and the final square roots, for mu = 1: the residual `tmp = GMV(x) - f` is
formed through `GMV` and `axpy` with coefficient d__2 = -1, then the two
weighted sums are accumulated row by row. -/
def computeErrorSums (s : Schwarz) (x f : Vec) : ℚ × ℚ :=
  errorFold s (axpyV dm1 f (GMV s x)) f

/-- Deflated-strategy work vector after the local solve stage (comment at line
293 of the source: work = D A⁻¹ (I − A Z E⁻¹ Zᵗ D) in). -/
def deflatedLocalStage (s : Schwarz) (v : Vec) : Vec :=
  let work1 := axpyV dm1 (csrMatVec s.A (deflation s v)) v
  let work2 := s.exchange (diagScale s.d work1)
  let work3 := if s.type = Prcndtnr.OS then diagScale s.d work2 else work2
  s.exchange (diagScale s.d (s.localSolve work3))

/-- Branch lemma: the overlapped-additive strategy (correction = 1, synchronous
fallback path). -/
theorem apply_eq_overlapped (s : Schwarz) (v : Vec) (w : Bool)
    (hc : s.hasCoarse = true) (h1 : s.correctionOpt = 1) :
    apply s v w =
      (s.exchange (diagScale s.d (axpyV 1 (s.localSolve v) (deflation s v))),
       if w then v else s.localSolve v) := by
  simp +decide [apply, hc, h1]

/-- Branch lemma: the deflated strategy (correction = 0). -/
theorem apply_eq_deflated (s : Schwarz) (v : Vec) (w : Bool)
    (hc : s.hasCoarse = true) (h0 : s.correctionOpt = 0) :
    apply s v w =
      (axpyV 1 (deflatedLocalStage s v) (deflation s v),
       if w then v else deflatedLocalStage s v) := by
  simp +decide [apply, deflatedLocalStage, hc, h0]

/-- Branch lemma: the balanced strategy (correction = 2). -/
theorem apply_eq_balanced (s : Schwarz) (v : Vec) (w : Bool)
    (hc : s.hasCoarse = true) (h2 : s.correctionOpt = 2) :
    apply s v w =
      (axpyV 1
        (axpyV dm1 (deflation s (GMV s (deflatedLocalStage s v)))
          (deflatedLocalStage s v))
        (deflation s v),
       if w then v
       else axpyV dm1 (deflation s (GMV s (deflatedLocalStage s v)))
         (deflatedLocalStage s v)) := by
  simp +decide [apply, deflatedLocalStage, hc, h2]

/-- Claim-side definition following the words of the spec (section 4.5.4): the
balanced strategy's extra round with the correction scaled by -2, as the spec
sentence states, instead of the coefficient -1 the code applies. -/
def applyBalancedSpec (s : Schwarz) (v : Vec) : Vec :=
  let work4 := deflatedLocalStage s v
  let work5 := axpyV (-2) (deflation s (GMV s work4)) work4
  axpyV 1 work5 (deflation s v)

/-- Per-row contribution to the weighted right-hand-side sum of
`Schwarz::computeError`. -/
def rowRhsContrib (s : Schwarz) (f : Vec) (i : ℕ) : ℚ :=
  if rowSkipped s.A i then 0
  else s.d.getD i 0 *
    (if HPDDM_EPS * HPDDM_PEN < |f.getD i 0| then f.getD i 0 / HPDDM_PEN
     else f.getD i 0) ^ 2

/-- Per-row contribution to the weighted residual sum of
`Schwarz::computeError`. -/
def rowResContrib (s : Schwarz) (tmp : Vec) (i : ℕ) : ℚ :=
  if rowSkipped s.A i then 0
  else if isBoundaryCond s.A i then 0
  else s.d.getD i 0 * (tmp.getD i 0) ^ 2

/-- A 1-row general CSR matrix holding the single entry `x`. -/
def csr1 (x : ℚ) : MatrixCSR := ⟨1, false, [x], [0, 1], [0]⟩

/-- Identity capability, used to instantiate the opaque collaborators in
concrete instances. -/
def idVec : Vec → Vec := fun v => v

/-- A concrete one-dof `Schwarz` state with identity capabilities, a one-entry
basis and a 1-row matrix. -/
def sMk (t : Prcndtnr) (dval av : ℚ) (hc : Bool) (corr : Int) : Schwarz :=
  ⟨1, [dval], [[1]], t, csr1 av, idVec, idVec, idVec, hc, corr⟩

/-- C1: for a non-excluded process, `deflation` computes
out = Z E⁻¹ Zᵗ D in (diagonal scaling, basis-transpose reduction, coarse
solve, basis prolongation) and, exactly when the active type is not `AD`
(Additive), rescales by the diagonal and performs the halo exchange; an
excluded process leaves the output buffer untouched and only invokes the
coarse-solve capability on the coarse buffer.  Since the coarse-solve and
exchange capabilities are universally quantified function fields of `s`, the
equations also certify which capabilities are invoked. -/
theorem deflation_coarse_correction (s : Schwarz) (v uc0 out0 : Vec) :
    deflationE s true v uc0 out0 = (s.coarseSolve uc0, out0) ∧
    (s.type ≠ Prcndtnr.AD →
      deflationE s false v uc0 out0 =
        (s.coarseSolve (gemvT s.ev (diagScale s.d v)),
         s.exchange (diagScale s.d
           (gemvN s.dof s.ev (s.coarseSolve (gemvT s.ev (diagScale s.d v))))))) ∧
    (s.type = Prcndtnr.AD →
      deflationE s false v uc0 out0 =
        (s.coarseSolve (gemvT s.ev (diagScale s.d v)),
         gemvN s.dof s.ev (s.coarseSolve (gemvT s.ev (diagScale s.d v))))) := by
  refine ⟨rfl, ?_, ?_⟩ <;> intro h <;>
    simp [deflationE, deflationUC, deflation, h]

/-- C1 witness: the theorem applied to a concrete Additive-type instance. -/
theorem deflation_coarse_correction_witness :
    deflationE (sMk Prcndtnr.AD 1 1 false (-1)) false [3] [] [] = ([3], [3]) := by
  have h := (deflation_coarse_correction (sMk Prcndtnr.AD 1 1 false (-1)) [3] [] []).2.2 rfl
  rw [h]
  simp +decide [sMk, idVec, csr1, diagScale, gemvT, gemvN, dot,
    List.range_succ, List.range_zero]

/-- C2 counterexample: in the single-level branch with type `SY` (Symmetric),
the code performs the local solve and the exchange with no diagonal scaling at
all (line 249 of the source), so the claimed scale-solve-scale-exchange value
differs on a concrete instance (d = 1/2, identity solve and exchange,
in = [1]: the code yields [1], the claim [1/4]). -/
theorem singleLevel_SY_cex :
    (apply (sMk Prcndtnr.SY (1/2) 1 false (-1)) [1] true).1 ≠
      (sMk Prcndtnr.SY (1/2) 1 false (-1)).exchange
        (diagScale (sMk Prcndtnr.SY (1/2) 1 false (-1)).d
          ((sMk Prcndtnr.SY (1/2) 1 false (-1)).localSolve
            (diagScale (sMk Prcndtnr.SY (1/2) 1 false (-1)).d [1]))) := by
  simp +decide [apply, sMk, applySingle, idVec, csr1, diagScale]
  norm_num

/-- C2 amended: in the single-level branch (no coarse operator, or strategy
-1), mode `NO` copies the input, modes `GE` and `OG` solve then scale then
exchange, mode `OS` scales, solves, scales and exchanges, and mode `SY` solves
and exchanges without any diagonal scaling. -/
theorem singleLevel_mode_table (s : Schwarz) (v : Vec) (w : Bool)
    (h : s.hasCoarse = false ∨ s.correctionOpt ≤ -1) :
    (s.type = Prcndtnr.NO → (apply s v w).1 = v) ∧
    ((s.type = Prcndtnr.GE ∨ s.type = Prcndtnr.OG) →
      (apply s v w).1 = s.exchange (diagScale s.d (s.localSolve v))) ∧
    (s.type = Prcndtnr.OS →
      (apply s v w).1 = s.exchange (diagScale s.d (s.localSolve (diagScale s.d v)))) ∧
    (s.type = Prcndtnr.SY → (apply s v w).1 = s.exchange (s.localSolve v)) := by
  have key := apply_eq_single s v w h
  refine ⟨?_, ?_, ?_, ?_⟩
  · intro ht; rw [key]; simp [applySingle, ht]
  · rintro (ht | ht) <;> (rw [key]; simp [applySingle, ht])
  · intro ht; rw [key]; simp [applySingle, ht]
  · intro ht; rw [key]; simp [applySingle, ht]

/-- C2 witness: the amended mode table applied to a concrete `OS` instance. -/
theorem singleLevel_mode_table_witness :
    (apply (sMk Prcndtnr.OS (1/2) 1 false (-1)) [1] true).1 = [1/4] := by
  have h := (singleLevel_mode_table (sMk Prcndtnr.OS (1/2) 1 false (-1)) [1] true
    (Or.inl rfl)).2.2.1 rfl
  rw [h]
  simp +decide [sMk, idVec, csr1, diagScale]
  norm_num

/-- C9 counterexample: with type `NO`, a coarse operator present and strategy
0 configured, `apply` takes the coarse path (which never tests for `NO`) and
the output differs from the input on a concrete instance. -/
theorem modeNone_coarse_cex :
    (apply (sMk Prcndtnr.NO 1 2 true 0) [1] true).1 ≠ [1] := by
  simp +decide [apply, sMk, applySingle, idVec, csr1, diagScale, deflation, deflationUC,
    gemvT, gemvN, dot, GMV, csrMatVec, csrRow, rowRange, rowEntries, axpyV, dm1,
    List.range_succ, List.range_zero, List.range']
  norm_num

/-- C9 amended: with type `NO`, `apply` copies the input to the output (and
leaves the input untouched) whenever the single-level branch is taken, that
is, whenever no coarse operator is present or the configured strategy is -1. -/
theorem modeNone_identity (s : Schwarz) (v : Vec) (w : Bool)
    (h : s.hasCoarse = false ∨ s.correctionOpt ≤ -1) (ht : s.type = Prcndtnr.NO) :
    (apply s v w).1 = v ∧ (apply s v w).2 = v := by
  rw [apply_eq_single s v w h]
  constructor <;> simp [applySingle, ht]

/-- C9 witness: the amended statement at a concrete configuration. -/
theorem modeNone_identity_witness :
    (apply (sMk Prcndtnr.NO (1/2) 1 false (-1)) [5] true).1 = [5] :=
  (modeNone_identity (sMk Prcndtnr.NO (1/2) 1 false (-1)) [5] true
    (Or.inl rfl) rfl).1

/-- C7 counterexample: when the caller supplies no work buffer, the coarse
strategies of `apply` use the input vector itself as scratch (line 256 of the
source aliases `work` to `in`) and modify it: on a concrete deflated-strategy
instance the input buffer holds [-1] on return instead of the original [1]. -/
theorem apply_mutates_input_cex :
    (apply (sMk Prcndtnr.GE 1 2 true 0) [1] false).2 ≠ [1] := by
  simp +decide [apply, sMk, applySingle, idVec, csr1, diagScale, deflation, deflationUC,
    gemvT, gemvN, dot, GMV, csrMatVec, csrRow, rowRange, rowEntries, axpyV, dm1,
    List.range_succ, List.range_zero, List.range']

/-- C7 amended: the coarse strategies operate on the caller-supplied work
buffer when one is given — the input survives unchanged and the output is the
same either way — but with no work buffer the input array itself is the
scratch vector. -/
theorem apply_work_buffer (s : Schwarz) (v : Vec) :
    (apply s v true).1 = (apply s v false).1 ∧ (apply s v true).2 = v := by
  constructor <;> (simp only [apply]; split
                   · rfl
                   · split <;> rfl)

/-- C5 counterexample: on a concrete balanced-strategy instance the output of
`apply` is [2] while the claimed extra round scaled by -2 yields [4]. -/
theorem balanced_scale_cex :
    (apply (sMk Prcndtnr.GE 1 2 true 2) [1] true).1 ≠
      applyBalancedSpec (sMk Prcndtnr.GE 1 2 true 2) [1] := by
  simp +decide [apply, applyBalancedSpec, deflatedLocalStage, sMk, applySingle, idVec,
    csr1, diagScale, deflation, deflationUC, gemvT, gemvN, dot, GMV, csrMatVec, csrRow,
    rowRange, rowEntries, axpyV, dm1, List.range_succ, List.range_zero, List.range']
  norm_num

/-- C5 amended: under strategy 2 (balanced), after the local-solve stage
`apply` performs exactly one extra round — multiply the stage result by the
global operator through `GMV`, take that product's coarse correction, scale it
by -1 (that is, subtract it), and add the result into the stage vector —
before the final combination with the coarse term. -/
theorem balanced_extra_round (s : Schwarz) (v : Vec) (w : Bool)
    (hc : s.hasCoarse = true) (hcorr : s.correctionOpt = 2) :
    (apply s v w).1 =
      axpyV 1
        (axpyV (-1) (deflation s (GMV s (deflatedLocalStage s v)))
          (deflatedLocalStage s v))
        (deflation s v) := by
  rw [apply_eq_balanced s v w hc hcorr]
  simp [dm1]

/-- C5 witness: the amended balanced round at a concrete instance. -/
theorem balanced_extra_round_witness :
    (apply (sMk Prcndtnr.GE 1 2 true 2) [1] true).1 = [2] := by
  have h := balanced_extra_round (sMk Prcndtnr.GE 1 2 true 2) [1] true rfl rfl
  rw [h]
  simp +decide [deflatedLocalStage, sMk, idVec, csr1, diagScale, deflation, deflationUC,
    gemvT, gemvN, dot, GMV, csrMatVec, csrRow, rowRange, rowEntries, axpyV, dm1,
    List.range_succ, List.range_zero, List.range']
  norm_num

/-- C6 counterexample: `GMV` applies the diagonal scaling only after the
sparse product (the scale-before variant is dead code behind `#if 0`), so on a
concrete instance (d = 1/2, 1-row matrix [1], identity exchange) `GMV` yields
[1/2] while the claimed scale-before-and-after composition yields [1/4]. -/
theorem GMV_scaling_cex :
    GMV (sMk Prcndtnr.GE (1/2) 1 false (-1)) [1] ≠
      (sMk Prcndtnr.GE (1/2) 1 false (-1)).exchange
        (diagScale (sMk Prcndtnr.GE (1/2) 1 false (-1)).d
          (csrMatVec (sMk Prcndtnr.GE (1/2) 1 false (-1)).A
            (diagScale (sMk Prcndtnr.GE (1/2) 1 false (-1)).d [1]))) := by
  simp +decide [GMV, sMk, idVec, csr1, diagScale, csrMatVec, csrRow, rowRange,
    rowEntries, List.range_succ, List.range_zero, List.range']

/-- C6 amended: `GMV` is sparse product, then one diagonal scaling, then the
halo exchange; `computeError` forms its residual through `GMV`; the balanced
extra round goes through `GMV` as well, but the deflated-branch residual
update applies the sparse kernel directly, accumulating -A·out into the work
vector before the scale-and-exchange (so that update is not a `GMV` call: the
scaling there also hits the accumulated input term). -/
theorem GMV_routing (s : Schwarz) (v x f : Vec) (w : Bool)
    (hc : s.hasCoarse = true) :
    GMV s v = s.exchange (diagScale s.d (csrMatVec s.A v)) ∧
    computeErrorSums s x f = errorFold s (axpyV dm1 f (GMV s x)) f ∧
    (s.correctionOpt = 0 →
      (apply s v w).1 = axpyV 1 (deflatedLocalStage s v) (deflation s v)) ∧
    (s.correctionOpt = 2 →
      (apply s v w).1 =
        axpyV 1
          (axpyV dm1 (deflation s (GMV s (deflatedLocalStage s v)))
            (deflatedLocalStage s v))
          (deflation s v)) ∧
    deflatedLocalStage s v =
      s.exchange (diagScale s.d (s.localSolve
        (if s.type = Prcndtnr.OS then
          diagScale s.d
            (s.exchange (diagScale s.d (axpyV dm1 (csrMatVec s.A (deflation s v)) v)))
         else
          s.exchange (diagScale s.d (axpyV dm1 (csrMatVec s.A (deflation s v)) v))))) := by
  refine ⟨rfl, rfl, ?_, ?_, ?_⟩
  · intro hcorr
    rw [apply_eq_deflated s v w hc hcorr]
  · intro hcorr
    rw [apply_eq_balanced s v w hc hcorr]
  · simp only [deflatedLocalStage]

/-- C6 witness: the amended routing statement at concrete instances of the
deflated (strategy 0) and balanced (strategy 2) paths. -/
theorem GMV_routing_witness :
    (apply (sMk Prcndtnr.GE 1 2 true 0) [1] true).1 = [0] ∧
    (apply (sMk Prcndtnr.GE 1 2 true 2) [1] true).1 = [2] := by
  constructor
  · have h := (GMV_routing (sMk Prcndtnr.GE 1 2 true 0) [1] [0] [0] true rfl).2.2.1 rfl
    rw [h]
    simp +decide [deflatedLocalStage, sMk, idVec, csr1, diagScale, deflation, deflationUC,
      gemvT, gemvN, dot, GMV, csrMatVec, csrRow, rowRange, rowEntries, axpyV, dm1,
      List.range_succ, List.range_zero, List.range']
    norm_num
  · have h := (GMV_routing (sMk Prcndtnr.GE 1 2 true 2) [1] [0] [0] true rfl).2.2.2.1 rfl
    rw [h]
    simp +decide [deflatedLocalStage, sMk, idVec, csr1, diagScale, deflation, deflationUC,
      gemvT, gemvN, dot, GMV, csrMatVec, csrRow, rowRange, rowEntries, axpyV, dm1,
      List.range_succ, List.range_zero, List.range']
    norm_num

/-- Helper: a pairwise-accumulating fold is the pair of the two mapped sums. -/
theorem foldl_pair_sum (g h : ℕ → ℚ) (l : List ℕ) (p : ℚ × ℚ) :
    l.foldl (fun st i => (st.1 + g i, st.2 + h i)) p =
      (p.1 + (l.map g).sum, p.2 + (l.map h).sum) := by
  induction l generalizing p with
  | nil => simp
  | cons a t ih => simp [ih, add_assoc]

/-- Helper: `errorFold` is the pair of row-contribution sums. -/
theorem errorFold_eq_sums (s : Schwarz) (tmp f : Vec) :
    errorFold s tmp f =
      (((List.range s.dof).map (rowRhsContrib s f)).sum,
       ((List.range s.dof).map (rowResContrib s tmp)).sum) := by
  have hstep : (fun (st : ℚ × ℚ) i =>
      if rowSkipped s.A i then st
      else
        (st.1 + s.d.getD i 0 *
          (if HPDDM_EPS * HPDDM_PEN < |f.getD i 0| then f.getD i 0 / HPDDM_PEN
           else f.getD i 0) ^ 2,
         st.2 + if isBoundaryCond s.A i then 0
                else s.d.getD i 0 * (tmp.getD i 0) ^ 2)) =
      (fun (st : ℚ × ℚ) i => (st.1 + rowRhsContrib s f i, st.2 + rowResContrib s tmp i)) := by
    funext st i
    by_cases hsk : rowSkipped s.A i
    · simp [rowRhsContrib, rowResContrib, hsk]
    · simp [rowRhsContrib, rowResContrib, hsk]
  rw [errorFold, hstep, foldl_pair_sum]
  simp

/-- C10 counterexample: on a concrete one-row instance whose single row is a
boundary row (diagonal 1, no off-diagonal entries) with right-hand side value
1, `computeError` adds the raw weighted value d * 1^2 = 1 to the
right-hand-side sum — the division by the penalty constant only happens for
right-hand-side entries above HPDDM_EPS * HPDDM_PEN, independently of the
boundary detection — so the claimed contribution d * (f / HPDDM_PEN)^2 is
wrong. -/
theorem computeError_boundary_rhs_cex :
    (computeErrorSums (sMk Prcndtnr.GE 1 1 false (-1)) [0] [1]).1 ≠
      (sMk Prcndtnr.GE 1 1 false (-1)).d.getD 0 0 * ((1 : ℚ) / HPDDM_PEN) ^ 2 := by
  simp +decide [computeErrorSums, errorFold, rowSkipped, isBoundaryCond, stopIdx, rowJa,
    lowerRange, rowRange, sMk, csr1, idVec, HPDDM_EPS, HPDDM_PEN, axpyV, GMV,
    csrMatVec, csrRow, diagScale, dm1, List.range_succ, List.range_zero, List.range']
  norm_num

/-- C10 amended: `computeError` accumulates, over non-skipped rows (a row is
skipped entirely when its last lower-triangular stored value exceeds
HPDDM_EPS * HPDDM_PEN in magnitude), a right-hand-side contribution that uses
f i / HPDDM_PEN exactly when the right-hand-side entry itself exceeds
HPDDM_EPS * HPDDM_PEN in magnitude (whether or not the row is a boundary row)
and the raw entry otherwise, and a residual contribution that is zero exactly
on boundary rows; a row is a boundary row exactly when each stored entry up to
the `stop` bound is negligible off the diagonal and within HPDDM_EPS of 1 on
the diagonal. -/
theorem computeError_row_contributions (s : Schwarz) (x f : Vec) :
    (computeErrorSums s x f).1 = ((List.range s.dof).map (rowRhsContrib s f)).sum ∧
    (computeErrorSums s x f).2 =
      ((List.range s.dof).map (rowResContrib s (axpyV dm1 f (GMV s x)))).sum ∧
    ∀ i, isBoundaryCond s.A i = true ↔
      ∀ j ∈ lowerRange s.A i,
        (s.A.ja.getD j 0 ≠ i → |s.A.a.getD j 0| ≤ HPDDM_EPS) ∧
        (s.A.ja.getD j 0 = i → |s.A.a.getD j 0 - 1| ≤ HPDDM_EPS) := by
  refine ⟨?_, ?_, ?_⟩
  · rw [computeErrorSums, errorFold_eq_sums]
  · rw [computeErrorSums, errorFold_eq_sums]
  · intro i
    simp only [isBoundaryCond, List.all_eq_true, decide_eq_true_eq]
    constructor
    · intro hall j hj
      rcases hall j hj with ⟨h1, h2⟩
      constructor
      · intro hne
        by_contra hgt
        exact h1 ⟨hne, not_le.mp hgt⟩
      · intro heq
        by_contra hgt
        exact h2 ⟨heq, not_le.mp hgt⟩
    · intro hall j hj
      rcases hall j hj with ⟨h1, h2⟩
      constructor
      · rintro ⟨hne, hlt⟩
        exact absurd (h1 hne) (not_le.mpr hlt)
      · rintro ⟨heq, hlt⟩
        exact absurd (h2 heq) (not_le.mpr hlt)

/-- C10 witness: the amended row-contribution statement at a concrete
instance. -/
theorem computeError_row_contributions_witness :
    (computeErrorSums (sMk Prcndtnr.GE 1 1 false (-1)) [0] [1]).1 =
      ((List.range 1).map (rowRhsContrib (sMk Prcndtnr.GE 1 1 false (-1)) [1])).sum :=
  (computeError_row_contributions (sMk Prcndtnr.GE 1 1 false (-1)) [0] [1]).1

/-- C8: `solveGEVP` yields at most the requested number of deflation vectors
(given the eigensolver capability's contract that its achieved count does not
exceed the request), overwrites both the `nu` argument and the `geneo_nu`
option entry with the achieved count, and prunes every entry of the returned
deflation vectors below the fixed relative threshold to exactly zero. -/
theorem solveGEVP_count_and_prune (eigensolve : ℕ → ℕ × List Vec) (n : ℕ)
    (h : (eigensolve n).1 ≤ n) :
    (solveGEVP eigensolve n).nu ≤ n ∧
    (solveGEVP eigensolve n).geneo_nu = (solveGEVP eigensolve n).nu ∧
    ∀ v ∈ (solveGEVP eigensolve n).ev.take (solveGEVP eigensolve n).nu,
      ∀ x ∈ v, |x| < 1 / (HPDDM_EPS * HPDDM_PEN) → x = 0 := by
  refine ⟨h, rfl, ?_⟩
  intro v hv x hx hlt
  have hvp : v ∈ ((eigensolve n).2.take (eigensolve n).1).map
      (fun u => u.map pruneEntry) := by
    rcases le_or_lt (eigensolve n).1 (eigensolve n).2.length with hle | hgt
    · have hlen : (eigensolve n).1 ≤
          (((eigensolve n).2.take (eigensolve n).1).map (fun u => u.map pruneEntry)).length := by
        rw [List.length_map, List.length_take]
        omega
      have := @List.take_append_of_le_length _ _ ((eigensolve n).2.drop (eigensolve n).1) _ hlen
      rw [solveGEVP] at hv
      simp only at hv
      rw [this] at hv
      exact List.take_subset _ _ hv
    · have hdrop : (eigensolve n).2.drop (eigensolve n).1 = [] := by
        rw [List.drop_eq_nil_iff]
        omega
      rw [solveGEVP] at hv
      simp only [hdrop, List.append_nil] at hv
      exact List.take_subset _ _ hv
  rcases List.mem_map.1 hvp with ⟨u, hu, rfl⟩
  rcases List.mem_map.1 hx with ⟨y, hy, rfl⟩
  by_cases hy2 : |y| < 1 / (HPDDM_EPS * HPDDM_PEN)
  · simp only [pruneEntry, if_pos hy2]
  · simp only [pruneEntry, if_neg hy2] at hlt
    exact absurd hlt hy2

/-- A concrete eigensolver capability for the witness: achieves at most one
vector, whose second entry is far below the pruning threshold. -/
def esTest : ℕ → ℕ × List Vec := fun k => (min k 1, [[1, 1 / 10 ^ 20]])

/-- C8 witness: the theorem applied to the concrete eigensolver; the achieved
count is within the request and the tiny entry is pruned to exactly zero. -/
theorem solveGEVP_count_and_prune_witness :
    (solveGEVP esTest 1).nu ≤ 1 ∧ (solveGEVP esTest 1).ev = [[1, 0]] := by
  refine ⟨(solveGEVP_count_and_prune esTest 1 (by simp [esTest])).1, ?_⟩
  simp +decide [solveGEVP, esTest, pruneEntry]
  constructor
  · norm_num [HPDDM_EPS, HPDDM_PEN]
  · rw [abs_of_pos (show (0 : ℚ) < ((10 : ℚ) ^ 20)⁻¹ by norm_num)]
    norm_num [HPDDM_EPS, HPDDM_PEN]

/-- Sequential weight updates at one index: apply `updOne` for each received
value in order. -/
def updList (s : ℚ) (rs : List ℚ) (w : ℚ) : ℚ := rs.foldl (fun w r => updOne s r w) w

/-- Received values at index `m`, concatenated over the neighbors of `ord` in
processing order. -/
def occsAlong (nmap : List (List ℕ)) (recv : List (List ℚ)) (m : ℕ)
    (ord : List ℕ) : List ℚ :=
  ord.foldr (fun i acc => occAt (nmap.getD i []) (recv.getD i []) m ++ acc) []

theorem updOne_zero (s r : ℚ) : updOne s r 0 = 0 := by
  unfold updOne
  split <;> simp

theorem updList_cons (s r : ℚ) (t : List ℚ) (w : ℚ) :
    updList s (r :: t) w = updList s t (updOne s r w) := rfl

theorem updList_zero (s : ℚ) (rs : List ℚ) : updList s rs 0 = 0 := by
  induction rs with
  | nil => rfl
  | cons r t ih => rw [updList_cons, updOne_zero]; exact ih

theorem updList_append (s : ℚ) (l₁ l₂ : List ℚ) (w : ℚ) :
    updList s (l₁ ++ l₂) w = updList s l₂ (updList s l₁ w) :=
  List.foldl_append _ _ _ _

theorem occsAlong_cons (nmap : List (List ℕ)) (recv : List (List ℚ)) (m i : ℕ)
    (ord : List ℕ) :
    occsAlong nmap recv m (i :: ord) =
      occAt (nmap.getD i []) (recv.getD i []) m ++ occsAlong nmap recv m ord := rfl

theorem getD_set_eq_ite (l : Vec) (k m : ℕ) (v : ℚ) :
    (l.set k v).getD m 0 = if k = m ∧ m < l.length then v else l.getD m 0 := by
  by_cases hk : k = m
  · subst hk
    by_cases hm : k < l.length
    · simp [List.getD_eq_getElem?_getD, List.getElem?_set_self hm, hm]
    · rw [List.set_eq_of_length_le (le_of_not_lt hm)]
      simp [hm]
  · simp [List.getD_eq_getElem?_getD, List.getElem?_set_ne hk, hk]

theorem setFold_getD (dInit : Vec) (L : List (ℕ × ℚ)) (d : Vec) (m : ℕ) :
    (L.foldl (fun dd p => dd.set p.1 (updOne (dInit.getD p.1 0) p.2 (dd.getD p.1 0))) d).getD m 0
      = updList (dInit.getD m 0)
          ((L.filter (fun p => decide (p.1 = m))).map (fun p => p.2)) (d.getD m 0) := by
  induction L generalizing d with
  | nil => rfl
  | cons p L ih =>
    rw [List.foldl_cons, ih, List.filter_cons]
    by_cases hpm : p.1 = m
    · rw [if_pos (by simp [hpm]), List.map_cons, updList_cons]
      congr 1
      rw [getD_set_eq_ite]
      by_cases hm : m < d.length
      · rw [if_pos ⟨hpm, hm⟩, hpm]
      · rw [if_neg (fun hc => hm hc.2)]
        rw [List.getD_eq_default _ _ (le_of_not_lt hm)]
        exact (updOne_zero _ _).symm

    · rw [if_neg (by simp [hpm])]
      congr 1
      rw [getD_set_eq_ite, if_neg (fun hc => hpm hc.1)]

theorem setFold_length (dInit : Vec) (L : List (ℕ × ℚ)) (d : Vec) :
    (L.foldl (fun dd p => dd.set p.1 (updOne (dInit.getD p.1 0) p.2 (dd.getD p.1 0))) d).length
      = d.length := by
  induction L generalizing d with
  | nil => rfl
  | cons p L ih => rw [List.foldl_cons, ih, List.length_set]

theorem neighborStep_getD (dInit : Vec) (idxs : List ℕ) (rvals : List ℚ)
    (d : Vec) (m : ℕ) :
    (neighborStep dInit idxs rvals d).getD m 0 =
      updList (dInit.getD m 0) (occAt idxs rvals m) (d.getD m 0) :=
  setFold_getD dInit (idxs.zip rvals) d m

theorem neighborStep_length (dInit : Vec) (idxs : List ℕ) (rvals : List ℚ)
    (d : Vec) : (neighborStep dInit idxs rvals d).length = d.length :=
  setFold_length dInit (idxs.zip rvals) d

theorem msFold_getD (nmap : List (List ℕ)) (recv : List (List ℚ)) (dInit : Vec)
    (ord : List ℕ) (d : Vec) (m : ℕ) :
    (ord.foldl (fun dd i => neighborStep dInit (nmap.getD i []) (recv.getD i []) dd) d).getD m 0
      = updList (dInit.getD m 0) (occsAlong nmap recv m ord) (d.getD m 0) := by
  induction ord generalizing d with
  | nil => rfl
  | cons i ord ih =>
    rw [List.foldl_cons, ih, neighborStep_getD, occsAlong_cons, updList_append]

theorem msFold_length (nmap : List (List ℕ)) (recv : List (List ℚ)) (dInit : Vec)
    (ord : List ℕ) (d : Vec) :
    (ord.foldl (fun dd i => neighborStep dInit (nmap.getD i []) (recv.getD i []) dd) d).length
      = d.length := by
  induction ord generalizing d with
  | nil => rfl
  | cons i ord ih => rw [List.foldl_cons, ih, neighborStep_length]

theorem updList_eps (s : ℚ) (hs : |s| < HPDDM_EPS) (rs : List ℚ) (w : ℚ)
    (hrs : rs ≠ []) : updList s rs w = 0 := by
  cases rs with
  | nil => exact absurd rfl hrs
  | cons r t =>
    rw [updList_cons, show updOne s r w = 0 from by rw [updOne, if_pos hs]]
    exact updList_zero s t

theorem updList_pos (s : ℚ) (hs0 : 0 ≤ s) (hs : ¬|s| < HPDDM_EPS) :
    ∀ rs : List ℚ, (∀ r ∈ rs, 0 ≤ r) → ∀ p : ℚ, 0 ≤ p →
      updList s rs (1 / (1 + p / s)) = 1 / (1 + (p + rs.sum) / s) := by
  have hspos : 0 < s := by
    rcases eq_or_lt_of_le hs0 with h | h
    · exfalso
      apply hs
      rw [← h, abs_zero, HPDDM_EPS]
      norm_num
    · exact h
  intro rs
  induction rs with
  | nil => intro _ p hp; simp [updList]
  | cons r t ih =>
    intro hrs p hp
    have hr : 0 ≤ r := hrs r (by simp)
    have ht : ∀ x ∈ t, 0 ≤ x := fun x hx => hrs x (by simp [hx])
    have hden : (0 : ℚ) < 1 + p / s := by positivity
    rw [updList_cons]
    have step : updOne s r (1 / (1 + p / s)) = 1 / (1 + (p + r) / s) := by
      rw [updOne, if_neg hs]
      have hden2 : (0 : ℚ) < 1 + (p + r) / s := by positivity
      have hne1 : (1 : ℚ) + p / s ≠ 0 := ne_of_gt hden
      have hne2 : (1 : ℚ) + (p + r) / s ≠ 0 := ne_of_gt hden2
      have hne3 : (1 : ℚ) + 1 / (1 + p / s) * r / s ≠ 0 := by
        have : (0 : ℚ) < 1 + 1 / (1 + p / s) * r / s := by positivity
        exact ne_of_gt this
      field_simp
      ring
    rw [step, ih ht (p + r) (by positivity), List.sum_cons]
    ring_nf

theorem occsAlong_sum (nmap : List (List ℕ)) (recv : List (List ℚ)) (m : ℕ)
    (ord : List ℕ) :
    (occsAlong nmap recv m ord).sum =
      (ord.map (fun i => (occAt (nmap.getD i []) (recv.getD i []) m).sum)).sum := by
  induction ord with
  | nil => rfl
  | cons i ord ih => rw [occsAlong_cons, List.sum_append, ih, List.map_cons, List.sum_cons]

theorem occsAlong_eq_nil_iff (nmap : List (List ℕ)) (recv : List (List ℚ)) (m : ℕ)
    (ord : List ℕ) :
    occsAlong nmap recv m ord = [] ↔
      ∀ i ∈ ord, occAt (nmap.getD i []) (recv.getD i []) m = [] := by
  induction ord with
  | nil => simp [occsAlong]
  | cons i ord ih =>
    rw [occsAlong_cons]
    simp [ih]

theorem getD_nonneg (l : Vec) (h : ∀ x ∈ l, 0 ≤ x) (m : ℕ) : 0 ≤ l.getD m 0 := by
  by_cases hm : m < l.length
  · rw [List.getD_eq_getElem _ _ hm]
    exact h _ (List.getElem_mem hm)
  · rw [List.getD_eq_default _ _ (le_of_not_lt hm)]

theorem occAt_subset (idxs : List ℕ) (rvals : List ℚ) (m : ℕ) :
    ∀ x ∈ occAt idxs rvals m, x ∈ rvals := by
  intro x hx
  rcases List.mem_map.1 hx with ⟨p, hp, rfl⟩
  exact (List.of_mem_zip (List.mem_of_mem_filter hp)).2

theorem occsAlong_nonneg (nmap : List (List ℕ)) (recv : List (List ℚ)) (m : ℕ)
    (ord : List ℕ) (hr : ∀ l ∈ recv, ∀ x ∈ l, 0 ≤ x) :
    ∀ x ∈ occsAlong nmap recv m ord, 0 ≤ x := by
  induction ord with
  | nil => simp [occsAlong]
  | cons i ord ih =>
    rw [occsAlong_cons]
    intro x hx
    rcases List.mem_append.1 hx with hx | hx
    · have hxr : x ∈ recv.getD i [] := occAt_subset _ _ _ x hx
      by_cases hi : i < recv.length
      · rw [List.getD_eq_getElem _ _ hi] at hxr
        exact hr _ (List.getElem_mem hi) x hxr
      · rw [List.getD_eq_default _ _ (le_of_not_lt hi)] at hxr
        exact absurd hxr (List.not_mem_nil x)
    · exact ih x hx

/-- Helper: the fixed point of `multiplicityScaling` written order-free: for
every completion order that is a permutation of the neighbor indices, and
nonnegative boundary data, the result equals `scalingClosedForm`. -/
theorem multiplicityScaling_closedForm (dof : ℕ) (nmap : List (List ℕ))
    (recv : List (List ℚ)) (dInit : Vec) (order : List ℕ)
    (hperm : order.Perm (List.range nmap.length))
    (hd : ∀ x ∈ dInit, 0 ≤ x)
    (hr : ∀ l ∈ recv, ∀ x ∈ l, 0 ≤ x) :
    multiplicityScaling dof nmap recv dInit order =
      scalingClosedForm dof nmap recv dInit := by
  have hlen1 : (multiplicityScaling dof nmap recv dInit order).length = dof := by
    rw [multiplicityScaling, msFold_length, List.length_replicate]
  have hlen2 : (scalingClosedForm dof nmap recv dInit).length = dof := by
    rw [scalingClosedForm, List.length_map, List.length_range]
  apply List.ext_getElem (by rw [hlen1, hlen2])
  intro m h₁ h₂
  rw [← List.getD_eq_getElem _ 0 h₁, ← List.getD_eq_getElem _ 0 h₂]
  have hm : m < dof := by rw [← hlen1]; exact h₁
  have hL : (multiplicityScaling dof nmap recv dInit order).getD m 0 =
      updList (dInit.getD m 0) (occsAlong nmap recv m order) 1 := by
    rw [multiplicityScaling, msFold_getD]
    congr 1
    simp [List.getD_eq_getElem?_getD, List.getElem?_replicate, hm]
  have hR : (scalingClosedForm dof nmap recv dInit).getD m 0 =
      if sharedZ nmap recv m then
        if |dInit.getD m 0| < HPDDM_EPS then 0
        else 1 / (1 + recvSum nmap recv m / dInit.getD m 0)
      else 1 := by
    rw [List.getD_eq_getElem _ 0 h₂]
    simp only [scalingClosedForm, List.getElem_map, List.getElem_range]
  rw [hL, hR]
  by_cases hsh : sharedZ nmap recv m
  · rw [if_pos hsh]
    have hne : occsAlong nmap recv m order ≠ [] := by
      intro hnil
      rw [occsAlong_eq_nil_iff] at hnil
      rw [sharedZ, List.any_eq_true] at hsh
      rcases hsh with ⟨i, hi, hocc⟩
      have : occAt (nmap.getD i []) (recv.getD i []) m = [] :=
        hnil i ((hperm.mem_iff).2 hi)
      rw [this] at hocc
      simp at hocc
    by_cases heps : |dInit.getD m 0| < HPDDM_EPS
    · rw [if_pos heps]
      exact updList_eps _ heps _ _ hne
    · rw [if_neg heps]
      have hnn : ∀ x ∈ occsAlong nmap recv m order, 0 ≤ x :=
        occsAlong_nonneg nmap recv m order hr
      have hd0 : 0 ≤ dInit.getD m 0 := getD_nonneg dInit hd m
      have h1 : (1 : ℚ) = 1 / (1 + 0 / dInit.getD m 0) := by simp
      rw [h1, updList_pos _ hd0 heps _ hnn 0 le_rfl, zero_add]
      congr 2
      rw [occsAlong_sum, recvSum]
      exact congrArg (fun z => z / dInit.getD m 0)
        (List.Perm.sum_eq
          (hperm.map (fun i => (occAt (nmap.getD i []) (recv.getD i []) m).sum)))
  · rw [if_neg hsh]
    have hnil : occsAlong nmap recv m order = [] := by
      rw [occsAlong_eq_nil_iff]
      intro i hi
      rw [sharedZ] at hsh
      by_contra hocc
      apply hsh
      rw [List.any_eq_true]
      exact ⟨i, (hperm.mem_iff).1 hi, by simpa using hocc⟩
    rw [hnil]
    rfl

/-- C4: `multiplicityScaling` sends the snapshot of the incoming weights at the
shared indices, resets the local weights to 1, and produces the same final
weights for every completion order of the neighbor receives (any permutation
of the neighbor indices): at an index exchanged with some neighbor, the weight
is exactly 0 when the snapshot value is below HPDDM_EPS in magnitude, and
otherwise results from one harmonic update w := w / (1 + w * received / sent)
per received value — order-free, it equals
1 / (1 + (sum of received values) / snapshot).  The nonnegativity hypotheses
reflect that the exchanged data are partition-of-unity weights; with exact
division the update family is only commutative on nonnegative data. -/
theorem multiplicityScaling_order_free (dof : ℕ) (nmap : List (List ℕ))
    (recv : List (List ℚ)) (dInit : Vec) (order1 order2 : List ℕ)
    (h1 : order1.Perm (List.range nmap.length))
    (h2 : order2.Perm (List.range nmap.length))
    (hd : ∀ x ∈ dInit, 0 ≤ x)
    (hr : ∀ l ∈ recv, ∀ x ∈ l, 0 ≤ x) :
    multiplicityScaling dof nmap recv dInit order1 =
      multiplicityScaling dof nmap recv dInit order2 ∧
    multiplicityScaling dof nmap recv dInit order1 =
      scalingClosedForm dof nmap recv dInit := by
  have e1 := multiplicityScaling_closedForm dof nmap recv dInit order1 h1 hd hr
  have e2 := multiplicityScaling_closedForm dof nmap recv dInit order2 h2 hd hr
  exact ⟨e1.trans e2.symm, e1⟩

/-- C4 witness: a three-dof subdomain with two neighbors, processed in the two
possible completion orders; both give the closed-form weights. -/
theorem multiplicityScaling_order_free_witness :
    multiplicityScaling 3 [[0, 1], [1]] [[2, 3], [5]] [1, 1, 7] [1, 0] =
      multiplicityScaling 3 [[0, 1], [1]] [[2, 3], [5]] [1, 1, 7] [0, 1] ∧
    multiplicityScaling 3 [[0, 1], [1]] [[2, 3], [5]] [1, 1, 7] [1, 0] =
      [1/3, 1/9, 1] := by
  constructor
  · exact (multiplicityScaling_order_free 3 [[0, 1], [1]] [[2, 3], [5]] [1, 1, 7]
      [1, 0] [0, 1] (by decide) (by decide)
      (by norm_num [List.forall_mem_cons])
      (by norm_num [List.forall_mem_cons])).1
  · simp [multiplicityScaling, neighborStep, updOne, HPDDM_EPS]
    norm_num

/-- Modelled from the spec: `Wrapper::gthr`, the gather of a vector at a list
of indices into a send buffer (line 115 of the source). -/
def gather (d : Vec) (idxs : List ℕ) : Vec := idxs.map (fun k => d.getD k 0)

theorem gather_length (d : Vec) (idxs : List ℕ) :
    (gather d idxs).length = idxs.length := List.length_map idxs _

theorem gather_getD (d : Vec) (idxs : List ℕ) (j : ℕ) (hj : j < idxs.length) :
    (gather d idxs).getD j 0 = d.getD (idxs.getD j 0) 0 := by
  have hj2 : j < (gather d idxs).length := by rw [gather_length]; exact hj
  rw [List.getD_eq_getElem _ 0 hj2, List.getD_eq_getElem _ 0 hj]
  simp [gather, List.getElem_map]

theorem occAt_eq_nil_of_not_mem (idxs : List ℕ) (rvals : List ℚ) (m : ℕ)
    (hm : m ∉ idxs) : occAt idxs rvals m = [] := by
  rw [occAt, List.map_eq_nil_iff, List.filter_eq_nil_iff]
  intro p hp
  simp only [decide_eq_true_eq]
  intro hp1
  exact hm (hp1 ▸ (List.of_mem_zip hp).1)

theorem occAt_of_nodup (idxs : List ℕ) (rvals : List ℚ)
    (hlen : idxs.length = rvals.length) (hnd : idxs.Nodup) :
    ∀ j < idxs.length, occAt idxs rvals (idxs.getD j 0) = [rvals.getD j 0] := by
  induction idxs generalizing rvals with
  | nil => intro j hj; simp at hj
  | cons a it ih =>
    intro j hj
    cases rvals with
    | nil => simp at hlen
    | cons b rt =>
      have hlen2 : it.length = rt.length := by simpa using hlen
      have hna : a ∉ it := (List.nodup_cons.1 hnd).1
      have hndt : it.Nodup := (List.nodup_cons.1 hnd).2
      cases j with
      | zero =>
        simp only [List.getD_cons_zero]
        rw [occAt, List.zip_cons_cons, List.filter_cons, if_pos (by simp),
          List.map_cons]
        congr 1
        rw [List.map_eq_nil_iff, List.filter_eq_nil_iff]
        intro p hp
        simp only [decide_eq_true_eq]
        intro hp1
        exact hna (hp1 ▸ (List.of_mem_zip hp).1)
      | succ j =>
        have hj2 : j < it.length := by simpa using hj
        have hmem : it.getD j 0 ∈ it := by
          rw [List.getD_eq_getElem _ 0 hj2]
          exact List.getElem_mem hj2
        have hne : a ≠ it.getD j 0 := fun h => hna (h ▸ hmem)
        simp only [List.getD_cons_succ]
        rw [occAt, List.zip_cons_cons, List.filter_cons, if_neg (by simpa using hne)]
        exact ih rt hlen2 hndt j hj2

theorem recvSum_single (idxs : List ℕ) (rvals : List ℚ) (m : ℕ) :
    recvSum [idxs] [rvals] m = (occAt idxs rvals m).sum := by
  simp [recvSum, List.range_succ, List.range_zero]

theorem sharedZ_single (idxs : List ℕ) (rvals : List ℚ) (m : ℕ) :
    sharedZ [idxs] [rvals] m = !(occAt idxs rvals m).isEmpty := by
  simp [sharedZ, List.range_succ, List.range_zero]

theorem scalingClosedForm_getD (dof : ℕ) (nmap : List (List ℕ))
    (recv : List (List ℚ)) (dInit : Vec) (m : ℕ) (hm : m < dof) :
    (scalingClosedForm dof nmap recv dInit).getD m 0 =
      if sharedZ nmap recv m then
        if |dInit.getD m 0| < HPDDM_EPS then 0
        else 1 / (1 + recvSum nmap recv m / dInit.getD m 0)
      else 1 := by
  have h2 : m < (scalingClosedForm dof nmap recv dInit).length := by
    rw [scalingClosedForm, List.length_map, List.length_range]
    exact hm
  rw [List.getD_eq_getElem _ 0 h2]
  simp only [scalingClosedForm, List.getElem_map, List.getElem_range]

/-- Helper: one side of a two-subdomain exchange.  Subdomain 1 has `n1` local
degrees of freedom and shares the indices `idx1` (pairwise distinct) with its
single neighbor, which holds weights `d2` at its own shared indices `idx2`;
the received buffer is the neighbor's gathered snapshot.  Unshared weights end
at 1; the weight at the j-th shared index is s1 / (s1 + s2) for the two
snapshot values s1, s2 at that geometric point. -/
theorem twoSub_side (n1 : ℕ) (idx1 idx2 : List ℕ) (d1 d2 : Vec)
    (hlen : idx1.length = idx2.length) (hnd : idx1.Nodup)
    (hd1 : ∀ x ∈ d1, 0 ≤ x) (hd2 : ∀ x ∈ d2, 0 ≤ x)
    (hpos1 : ∀ j < idx1.length, HPDDM_EPS ≤ d1.getD (idx1.getD j 0) 0) :
    (∀ m, m < n1 → m ∉ idx1 →
      (multiplicityScaling n1 [idx1] [gather d2 idx2] d1 [0]).getD m 0 = 1) ∧
    (∀ j, j < idx1.length → idx1.getD j 0 < n1 →
      (multiplicityScaling n1 [idx1] [gather d2 idx2] d1 [0]).getD (idx1.getD j 0) 0 =
        d1.getD (idx1.getD j 0) 0 /
          (d1.getD (idx1.getD j 0) 0 + d2.getD (idx2.getD j 0) 0)) := by
  have hperm : ([0] : List ℕ).Perm (List.range ([idx1] : List (List ℕ)).length) := by
    rw [List.length_singleton]
    decide
  have hrnn : ∀ l ∈ [gather d2 idx2], ∀ x ∈ l, 0 ≤ x := by
    intro l hl x hx
    rw [List.mem_singleton] at hl
    subst hl
    rcases List.mem_map.1 hx with ⟨k, hk, rfl⟩
    exact getD_nonneg d2 hd2 k
  have hcf := multiplicityScaling_closedForm n1 [idx1] [gather d2 idx2] d1 [0]
    hperm hd1 hrnn
  constructor
  · intro m hm hnotm
    have hocc0 : occAt idx1 (gather d2 idx2) m = [] :=
      occAt_eq_nil_of_not_mem _ _ _ hnotm
    have hunshared : ¬sharedZ [idx1] [gather d2 idx2] m = true := by
      rw [sharedZ_single, hocc0]
      simp
    rw [hcf, scalingClosedForm_getD _ _ _ _ _ hm, if_neg hunshared]
  · intro j hj hlt
    have hlen2 : idx1.length = (gather d2 idx2).length := by
      rw [gather_length]
      exact hlen
    have hocc := occAt_of_nodup idx1 (gather d2 idx2) hlen2 hnd j hj
    have hs1 : HPDDM_EPS ≤ d1.getD (idx1.getD j 0) 0 := hpos1 j hj
    have heps : (0 : ℚ) < HPDDM_EPS := by norm_num [HPDDM_EPS]
    have hs1pos : 0 < d1.getD (idx1.getD j 0) 0 := lt_of_lt_of_le heps hs1
    have habs : ¬|d1.getD (idx1.getD j 0) 0| < HPDDM_EPS :=
      not_lt.mpr (by rw [abs_of_nonneg (le_of_lt hs1pos)]; exact hs1)
    have hs2nn : 0 ≤ d2.getD (idx2.getD j 0) 0 := getD_nonneg d2 hd2 _
    have hshared : sharedZ [idx1] [gather d2 idx2] (idx1.getD j 0) = true := by
      rw [sharedZ_single, hocc]
      rfl
    rw [hcf, scalingClosedForm_getD _ _ _ _ _ hlt, if_pos hshared, if_neg habs,
      recvSum_single, hocc, List.sum_cons, List.sum_nil, add_zero,
      gather_getD _ _ _ (hlen ▸ hj)]
    have h1 : (d1.getD (idx1.getD j 0) 0 + d2.getD (idx2.getD j 0) 0) /
        d1.getD (idx1.getD j 0) 0 =
        1 + d2.getD (idx2.getD j 0) 0 / d1.getD (idx1.getD j 0) 0 := by
      rw [add_div, div_self (ne_of_gt hs1pos)]
    rw [← h1, one_div_div]

/-- C3 counterexample: in the symmetric two-subdomain topology sharing exactly
one degree of freedom, with snapshot value 0 at the shared index on both
sides, `multiplicityScaling` yields weight exactly 0 on both sides (the
HPDDM_EPS degenerate branch), so the weight is not in (0, 1] and the two
weights sum to 0, not 1. -/
theorem scaling_zero_weight_cex :
    (multiplicityScaling 1 [[0]] [gather ([0] : Vec) [0]] [0] [0]).getD 0 0 = 0 ∧
    ¬(0 < (multiplicityScaling 1 [[0]] [gather ([0] : Vec) [0]] [0] [0]).getD 0 0) ∧
    (multiplicityScaling 1 [[0]] [gather ([0] : Vec) [0]] [0] [0]).getD 0 0 +
      (multiplicityScaling 1 [[0]] [gather ([0] : Vec) [0]] [0] [0]).getD 0 0 ≠ 1 := by
  have h : (multiplicityScaling 1 [[0]] [gather ([0] : Vec) [0]] [0] [0]).getD 0 0 = 0 := by
    simp [multiplicityScaling, neighborStep, updOne, gather, HPDDM_EPS]
  refine ⟨h, ?_, ?_⟩
  · rw [h]
    norm_num
  · rw [h]
    norm_num

/-- Sum of a list recovered from its entries indexed over its range. -/
theorem sum_range_getD (l : List ℚ) :
    ((List.range l.length).map (fun i => l.getD i 0)).sum = l.sum := by
  induction l with
  | nil => simp
  | cons a t ih =>
    rw [List.length_cons, List.range_succ_eq_map, List.map_cons, List.map_map]
    simp only [List.sum_cons, List.getD_cons_zero]
    have hcomp : ((fun i => (a :: t).getD i 0) ∘ Nat.succ) = (fun i => t.getD i 0) := rfl
    rw [hcomp, ih]

/-- The total received contribution at an index is nonnegative for
nonnegative received data. -/
theorem recvSum_nonneg (nmap : List (List ℕ)) (recv : List (List ℚ)) (m : ℕ)
    (hr : ∀ l ∈ recv, ∀ x ∈ l, 0 ≤ x) : 0 ≤ recvSum nmap recv m := by
  rw [recvSum]
  apply List.sum_nonneg
  intro y hy
  rcases List.mem_map.1 hy with ⟨i, hi, rfl⟩
  apply List.sum_nonneg
  intro x hx
  have hxr : x ∈ recv.getD i [] := occAt_subset _ _ _ x hx
  by_cases hi2 : i < recv.length
  · rw [List.getD_eq_getElem _ _ hi2] at hxr
    exact hr _ (List.getElem_mem hi2) x hxr
  · rw [List.getD_eq_default _ _ (le_of_not_lt hi2)] at hxr
    exact absurd hxr (List.not_mem_nil x)

/-- Neighbor maps of one subdomain holding a degree of freedom shared by `k`
other subdomains: each of the `k` neighbors shares exactly the local index
`m`. -/
def starMap (m : ℕ) (k : ℕ) : List (List ℕ) := List.replicate k [m]

/-- The matching received buffers: one value per neighbor. -/
def starRecv (vals : List ℚ) : List (List ℚ) := vals.map (fun x => [x])

theorem star_occAt (m : ℕ) (R : List ℚ) (i : ℕ) (hi : i < R.length) :
    occAt ((starMap m R.length).getD i []) ((starRecv R).getD i []) m =
      [R.getD i 0] := by
  have h1 : (starMap m R.length).getD i [] = [m] := by
    simp [starMap, List.getD_eq_getElem?_getD, List.getElem?_replicate, hi]
  have h2 : (starRecv R).getD i [] = [R.getD i 0] := by
    have hi2 : i < (starRecv R).length := by
      rw [starRecv, List.length_map]
      exact hi
    rw [List.getD_eq_getElem _ _ hi2, List.getD_eq_getElem _ _ hi]
    simp [starRecv, List.getElem_map]
  rw [h1, h2]
  simp [occAt]

theorem star_recvSum (m : ℕ) (R : List ℚ) :
    recvSum (starMap m R.length) (starRecv R) m = R.sum := by
  rw [recvSum, show (starMap m R.length).length = R.length from by
    rw [starMap, List.length_replicate]]
  rw [List.map_congr_left (fun i hi => by
    rw [star_occAt m R i (List.mem_range.1 hi), List.sum_cons, List.sum_nil,
      add_zero])]
  exact sum_range_getD R

/-- Helper: the weight of one subdomain at a degree of freedom it shares with
`R.length` other subdomains, receiving the value list `R` (one value per
neighbor), is snapshot / (snapshot + sum of received values). -/
theorem star_weight (n m : ℕ) (R : List ℚ) (d : Vec) (order : List ℕ)
    (hperm : order.Perm (List.range R.length)) (hm : m < n)
    (hd : ∀ x ∈ d, 0 ≤ x) (hR : ∀ x ∈ R, 0 ≤ x)
    (hs : HPDDM_EPS ≤ d.getD m 0) :
    (multiplicityScaling n (starMap m R.length) (starRecv R) d order).getD m 0 =
      d.getD m 0 / (d.getD m 0 + R.sum) := by
  have heps : (0 : ℚ) < HPDDM_EPS := by norm_num [HPDDM_EPS]
  have hspos : 0 < d.getD m 0 := lt_of_lt_of_le heps hs
  have hperm2 : order.Perm (List.range (starMap m R.length : List (List ℕ)).length) := by
    rw [starMap, List.length_replicate]
    exact hperm
  have hrnn : ∀ l ∈ starRecv R, ∀ x ∈ l, 0 ≤ x := by
    intro l hl x hx
    rcases List.mem_map.1 hl with ⟨y, hy, rfl⟩
    rw [List.mem_singleton] at hx
    subst hx
    exact hR _ hy
  rw [multiplicityScaling_closedForm n (starMap m R.length) (starRecv R) d order
    hperm2 hd hrnn, scalingClosedForm_getD _ _ _ _ _ hm]
  by_cases hR0 : R = []
  · subst hR0
    have hsh : sharedZ (starMap m ([] : List ℚ).length) (starRecv []) m = false := by
      simp [sharedZ, starMap, starRecv]
    rw [if_neg (by rw [hsh]; simp), List.sum_nil, add_zero,
      div_self (ne_of_gt hspos)]
  · have hlen0 : 0 < R.length := List.length_pos.2 hR0
    have hsh : sharedZ (starMap m R.length) (starRecv R) m = true := by
      rw [sharedZ, List.any_eq_true]
      refine ⟨0, ?_, ?_⟩
      · rw [starMap, List.length_replicate]
        exact List.mem_range.2 hlen0
      · rw [star_occAt m R 0 hlen0]
        simp
    have habs : ¬|d.getD m 0| < HPDDM_EPS :=
      not_lt.mpr (by rw [abs_of_nonneg hspos.le]; exact hs)
    rw [if_pos hsh, if_neg habs, star_recvSum]
    have h1 : (d.getD m 0 + R.sum) / d.getD m 0 = 1 + R.sum / d.getD m 0 := by
      rw [add_div, div_self (ne_of_gt hspos)]
    rw [← h1, one_div_div]

/-- Removing one entry of a list and adding it back to the sum of the rest
recovers the total sum. -/
theorem sum_eraseIdx (S : List ℚ) : ∀ i < S.length,
    S.getD i 0 + (S.eraseIdx i).sum = S.sum := by
  induction S with
  | nil => intro i hi; simp at hi
  | cons a t ih =>
    intro i hi
    cases i with
    | zero => simp [List.eraseIdx_cons_zero]
    | succ i =>
      rw [List.getD_cons_succ, List.eraseIdx_cons_succ, List.sum_cons,
        List.sum_cons]
      have := ih i (by simpa using hi)
      linarith

/-- C3 amended: with the HPDDM_EPS proviso the claim's invariants hold in
full generality.  First conjunct: on any subdomain whose exchanged data are
nonnegative and whose snapshot value at every exchanged index is at least
HPDDM_EPS, every weight produced by `multiplicityScaling` lies in (0, 1],
whatever the neighbor topology and completion order.  Second conjunct: for a
degree of freedom shared by all of `S.length` subdomains (snapshot values `S`,
each at least HPDDM_EPS; each subdomain exchanging that index with the other
`S.length - 1` subdomains and receiving their snapshots), the weights
contributed by all subdomains sharing it sum to exactly 1 — each weight being
its snapshot divided by the sum of all snapshots; the symmetric two-subdomain
single-shared-dof case 1/2 + 1/2 = 1 is the instance S = [s, s].  Snapshot
values below HPDDM_EPS instead give weight exactly 0 (the counterexample). -/
theorem scaling_partition_of_unity :
    (∀ (dof : ℕ) (nmap : List (List ℕ)) (recv : List (List ℚ)) (dInit : Vec)
        (order : List ℕ),
      order.Perm (List.range nmap.length) →
      (∀ x ∈ dInit, 0 ≤ x) →
      (∀ l ∈ recv, ∀ x ∈ l, 0 ≤ x) →
      (∀ m, sharedZ nmap recv m = true → HPDDM_EPS ≤ dInit.getD m 0) →
      ∀ m < dof,
        0 < (multiplicityScaling dof nmap recv dInit order).getD m 0 ∧
        (multiplicityScaling dof nmap recv dInit order).getD m 0 ≤ 1) ∧
    (∀ (S : List ℚ) (ns ms : List ℕ) (ds : List Vec) (orders : List (List ℕ)),
      S ≠ [] →
      (∀ x ∈ S, HPDDM_EPS ≤ x) →
      (∀ i < S.length, (orders.getD i []).Perm (List.range (S.length - 1))) →
      (∀ i < S.length, ms.getD i 0 < ns.getD i 0) →
      (∀ i < S.length, ∀ x ∈ ds.getD i [], 0 ≤ x) →
      (∀ i < S.length, (ds.getD i []).getD (ms.getD i 0) 0 = S.getD i 0) →
      ((List.range S.length).map (fun i =>
        (multiplicityScaling (ns.getD i 0) (starMap (ms.getD i 0) (S.length - 1))
          (starRecv (S.eraseIdx i)) (ds.getD i []) (orders.getD i [])).getD
            (ms.getD i 0) 0)).sum = 1) := by
  have heps : (0 : ℚ) < HPDDM_EPS := by norm_num [HPDDM_EPS]
  constructor
  · intro dof nmap recv dInit order hperm hd hr hguard m hm
    rw [multiplicityScaling_closedForm dof nmap recv dInit order hperm hd hr,
      scalingClosedForm_getD _ _ _ _ _ hm]
    by_cases hsh : sharedZ nmap recv m = true
    · have hs := hguard m hsh
      have hspos : 0 < dInit.getD m 0 := lt_of_lt_of_le heps hs
      have habs : ¬|dInit.getD m 0| < HPDDM_EPS :=
        not_lt.mpr (by rw [abs_of_nonneg hspos.le]; exact hs)
      rw [if_pos hsh, if_neg habs]
      have hRnn : 0 ≤ recvSum nmap recv m := recvSum_nonneg nmap recv m hr
      have hq : 0 ≤ recvSum nmap recv m / dInit.getD m 0 :=
        div_nonneg hRnn hspos.le
      have hden : 0 < 1 + recvSum nmap recv m / dInit.getD m 0 := by linarith
      constructor
      · exact one_div_pos.2 hden
      · rw [div_le_one hden]
        linarith
    · rw [if_neg hsh]
      norm_num
  · intro S ns ms ds orders hS0 hSe hperms hmns hds hsnap
    have hSnn : ∀ x ∈ S, 0 ≤ x := fun x hx => le_trans heps.le (hSe x hx)
    have hsum_pos : 0 < S.sum := by
      rcases List.exists_cons_of_ne_nil hS0 with ⟨a, t, rfl⟩
      have ha : HPDDM_EPS ≤ a := hSe a (by simp)
      have ht : 0 ≤ t.sum := List.sum_nonneg (fun x hx => hSnn x (by simp [hx]))
      rw [List.sum_cons]
      linarith
    have hterm : ∀ i ∈ List.range S.length,
        (multiplicityScaling (ns.getD i 0) (starMap (ms.getD i 0) (S.length - 1))
          (starRecv (S.eraseIdx i)) (ds.getD i []) (orders.getD i [])).getD
            (ms.getD i 0) 0 = S.getD i 0 / S.sum := by
      intro i hi
      have hi2 : i < S.length := List.mem_range.1 hi
      have hElen : (S.eraseIdx i).length = S.length - 1 := by
        rw [List.length_eraseIdx, if_pos hi2]
      have hEnn : ∀ x ∈ S.eraseIdx i, 0 ≤ x :=
        fun x hx => hSnn x (List.mem_of_mem_eraseIdx hx)
      have hmemS : S.getD i 0 ∈ S := by
        rw [List.getD_eq_getElem _ 0 hi2]
        exact List.getElem_mem hi2
      have hw := star_weight (ns.getD i 0) (ms.getD i 0) (S.eraseIdx i)
        (ds.getD i []) (orders.getD i [])
        (by rw [hElen]; exact hperms i hi2) (hmns i hi2) (hds i hi2) hEnn
        (by rw [hsnap i hi2]; exact hSe _ hmemS)
      rw [← hElen, hw, hsnap i hi2, sum_eraseIdx S i hi2]
    rw [List.map_congr_left hterm]
    have hdiv : ((List.range S.length).map (fun i => S.getD i 0 / S.sum)).sum =
        ((List.range S.length).map (fun i => S.getD i 0)).sum / S.sum := by
      simp only [div_eq_mul_inv]
      rw [List.sum_map_mul_right]
    rw [hdiv, sum_range_getD, div_self (ne_of_gt hsum_pos)]

/-- C3 witness: the symmetric two-subdomain single-shared-dof instance with
snapshot value 1 on both sides (S = [1, 1]): the theorem gives weight sum 1
(each side 1/2), and the general bound gives 0 < w for that side. -/
theorem scaling_partition_of_unity_witness :
    ((List.range 2).map (fun i =>
      (multiplicityScaling (([1, 1] : List ℕ).getD i 0)
        (starMap (([0, 0] : List ℕ).getD i 0) 1)
        (starRecv (([1, 1] : List ℚ).eraseIdx i))
        (([[1], [1]] : List Vec).getD i [])
        (([[0], [0]] : List (List ℕ)).getD i [])).getD
          (([0, 0] : List ℕ).getD i 0) 0)).sum = 1 ∧
    0 < (multiplicityScaling 1 [[0]] [[1]] [1] [0]).getD 0 0 := by
  constructor
  · exact (scaling_partition_of_unity).2 [1, 1] [1, 1] [0, 0] [[1], [1]] [[0], [0]]
      (by simp) (by norm_num [List.forall_mem_cons, HPDDM_EPS])
      (by
        intro i hi
        simp only [List.length_cons, List.length_nil] at hi
        interval_cases i <;> decide)
      (by
        intro i hi
        simp only [List.length_cons, List.length_nil] at hi
        interval_cases i <;> decide)
      (by
        intro i hi
        simp only [List.length_cons, List.length_nil] at hi
        interval_cases i <;> norm_num [List.forall_mem_cons])
      (by
        intro i hi
        simp only [List.length_cons, List.length_nil] at hi
        interval_cases i <;> norm_num)
  · exact ((scaling_partition_of_unity).1 1 [[0]] [[1]] [1] [0]
      (by decide) (by norm_num [List.forall_mem_cons])
      (by norm_num [List.forall_mem_cons])
      (by
        intro m hm
        by_cases h0 : m = 0
        · subst h0
          norm_num [HPDDM_EPS]
        · exfalso
          rw [sharedZ_single,
            occAt_eq_nil_of_not_mem _ _ _ (by simpa using h0)] at hm
          simp at hm)
      0 (by norm_num)).1

end HPDDM
